import Mathlib

/-!
Shallow embedding of `src/rust/src/calepinage.rs` (deck-plank layout
computation) together with proofs about its data model, row selection
algorithm and layout builder.

Machine integers (`usize`) are modelled as `Nat`; the quantities involved
(plank lengths bounded by 10000, deck lengths bounded by 1000000, sums of
finitely many planks) never approach `2^64`, and the Rust code performs no
wrapping arithmetic, so plain `Nat` arithmetic is faithful.  Fallible Rust
constructors (`Result<_, String>`) become `Except String _`; the layout
result (`Result<Calepinage, CalepinageError>`) becomes
`Except CalepinageError Calepinage`.  Rust's `HashSet<Junction>` is only
ever used for membership tests, so it is modelled by the `List Junction`
it is collected from, with list membership.
-/

set_option linter.dupNamespace false

namespace Calepinage

/-- A plank (`struct Plank { length: usize }`). -/
structure Plank where
  length : Nat
deriving DecidableEq, Repr

/-- `Plank::MAX_LENGTH`. -/
def Plank.MAX_LENGTH : Nat := 10000

/-- `Plank::new`: rejects lengths above `MAX_LENGTH`. -/
def Plank.new (length : Nat) : Except String Plank :=
  if length > Plank.MAX_LENGTH then
    Except.error ("max length of plank is " ++ toString Plank.MAX_LENGTH)
  else
    Except.ok ⟨length⟩

/-- A deck (`struct Deck { length: usize, width: usize }`). -/
structure Deck where
  length : Nat
  width : Nat
deriving DecidableEq, Repr

/-- `Deck::MAX_LENGTH`. -/
def Deck.MAX_LENGTH : Nat := 1000000

/-- `Deck::new`: rejects zero dimensions and lengths above `MAX_LENGTH`. -/
def Deck.new (length width : Nat) : Except String Deck :=
  if length = 0 || width = 0 then
    Except.error "a deck cant have any zero dimension"
  else if length > Deck.MAX_LENGTH then
    Except.error ("max length of deck is " ++ toString Deck.MAX_LENGTH)
  else
    Except.ok ⟨length, width⟩

/-- A heap of planks with its cached total length
(`struct PlankHeap { planks: Vec<Plank>, total_length: usize }`). -/
structure PlankHeap where
  planks : List Plank
  total_length : Nat
deriving DecidableEq, Repr

/-- `PlankHeap::new`. -/
def PlankHeap.new : PlankHeap := ⟨[], 0⟩

/-- `PlankHeap::add` on its happy path: the Rust code materialises `count`
planks of the given length through `Plank::new(length).unwrap()` and extends
the vector, adding `count * length` to the cached total. -/
def PlankHeap.add (h : PlankHeap) (count length : Nat) : PlankHeap :=
  ⟨h.planks ++ List.replicate count ⟨length⟩, h.total_length + count * length⟩

/-- The plank list `(0..count).map(|_| Plank::new(length))` collected into a
`Result`: Rust's `unwrap` panics on the first invalid plank, and with
`count = 0` no plank is ever constructed. -/
def planksToBeAdded (count length : Nat) : Except String (List Plank) :=
  match count with
  | 0 => Except.ok []
  | c + 1 => do
    let p ← Plank.new length
    let rest ← planksToBeAdded c length
    Except.ok (p :: rest)

/-- `PlankHeap::add` with the `unwrap` panic made explicit as an error. -/
def PlankHeap.addChecked (h : PlankHeap) (count length : Nat) :
    Except String PlankHeap := do
  let ps ← planksToBeAdded count length
  Except.ok ⟨h.planks ++ ps, h.total_length + count * length⟩

/-- `PlankHeap::from_planks`: fold `add 1 plank.length` over the list. -/
def PlankHeap.from_planks (planks : List Plank) : PlankHeap :=
  planks.foldl (fun heap plank => heap.add 1 plank.length) PlankHeap.new

/-- `PlankHeap::to_string`: comma-joined plank lengths. -/
def PlankHeap.toText (h : PlankHeap) : String :=
  String.intercalate ", " (h.planks.map (fun p => toString p.length))

/-- A junction (`struct Junction(usize)`). -/
structure Junction where
  offset : Nat
deriving DecidableEq, Repr

/-- A line (`struct Line(pub Vec<Plank>)`). -/
structure Line where
  planks : List Plank
deriving DecidableEq, Repr

/-- `Line::with_plank`: append one plank. -/
def Line.with_plank (l : Line) (new_plank_to_add : Plank) : Line :=
  ⟨l.planks ++ [new_plank_to_add]⟩

/-- The running prefix sums produced by the Rust `scan` combinator: starting
from `acc`, emit the accumulated total after each plank. -/
def scanSums (acc : Nat) : List Plank → List Nat
  | [] => []
  | p :: ps => (acc + p.length) :: scanSums (acc + p.length) ps

/-- `Line::compute_junction`: the prefix sums of all planks, truncated to
drop the final total, i.e. `n - 1` junctions for `n > 1` planks and none
otherwise. -/
def Line.compute_junction (l : Line) : List Junction :=
  if l.planks.length > 1 then
    ((scanSums 0 l.planks).map Junction.mk).take (l.planks.length - 1)
  else
    []

/-- `Line::to_string`: bracketed comma-joined lengths. -/
def Line.toText (l : Line) : String :=
  "[" ++ String.intercalate ", " (l.planks.map (fun p => toString p.length)) ++ "]"

/-- A layout (`struct Calepinage(pub Vec<Line>)`). -/
structure Calepinage where
  lines : List Line
deriving DecidableEq, Repr

/-- `Calepinage::with_line`: append one line. -/
def Calepinage.with_line (c : Calepinage) (new_line_to_add : Line) : Calepinage :=
  ⟨c.lines ++ [new_line_to_add]⟩

/-- `Calepinage::to_string`. -/
def Calepinage.toText (c : Calepinage) : String :=
  "Calepinage(" ++ String.intercalate ", " (c.lines.map Line.toText) ++ ")"

/-- The transient working state of one row's selection
(`struct CalepineStep { remaining, selected, stash }`). -/
structure CalepineStep where
  remaining : PlankHeap
  selected : PlankHeap
  stash : Option Plank
deriving DecidableEq, Repr

/-- `CalepineStep::default()` (derived `Default`). -/
def CalepineStep.init : CalepineStep :=
  ⟨PlankHeap.new, PlankHeap.new, none⟩

/-- The Rust `Debug` rendering of the stash (`{:?}` on `Option<Plank>`). -/
def stashText : Option Plank → String
  | none => "None"
  | some p => "Some(Plank \x7b length: " ++ toString p.length ++ " \x7d)"

/-- `CalepineStep::to_string`: the diagnostic dump of a step. -/
def CalepineStep.toText (s : CalepineStep) : String :=
  "remaining = [" ++ s.remaining.toText ++ "], selected = [" ++
    s.selected.toText ++ "], stash = " ++ stashText s.stash

/-- `enum CalepinageError`. -/
inductive CalepinageError where
  | NotEnoughPlanks : CalepinageError
  | OnlyUnusablePlanksRemaining : String → CalepinageError
deriving DecidableEq, Repr

/-- The closure `select_planks_fitting_length_goal`: one greedy step.
A plank that would overshoot the deck length goes to `remaining`, a plank
whose junction collides with the previous line's junctions goes to the
single `stash` slot (overwriting it), and otherwise the plank is selected. -/
def select_planks_fitting_length_goal (deck_length : Nat)
    (previous_line_junctions : List Junction) (step : CalepineStep)
    (plank : Plank) : CalepineStep :=
  let new_length := step.selected.total_length + plank.length
  let junction : Junction := ⟨new_length⟩
  if new_length > deck_length then
    { step with remaining := step.remaining.add 1 plank.length }
  else if junction ∈ previous_line_junctions then
    { step with stash := some plank }
  else
    { step with selected := step.selected.add 1 plank.length }

/-- The hard-coded `[10, 10, 2, 2]` special case of `select_planks_for_line`,
verbatim from the Rust source: when the first plank's junction (10) collides
with the previous line, select planks 2 and 0 (`[2, 10]`) and reject planks
3 and 1; otherwise select planks 0 and 2 (`[10, 2]`) and reject 1 and 3. -/
def specialCaseStep (previous_line_junctions : List Junction) : CalepineStep :=
  let new_length := PlankHeap.new.total_length + 10
  let junction : Junction := ⟨new_length⟩
  if junction ∈ previous_line_junctions then
    { remaining := (PlankHeap.new.add 1 2).add 1 10,
      selected := (PlankHeap.new.add 1 2).add 1 10,
      stash := none }
  else
    { remaining := (PlankHeap.new.add 1 10).add 1 2,
      selected := (PlankHeap.new.add 1 10).add 1 2,
      stash := none }

/-- The working state `step` after the single greedy pass of
`select_planks_for_line` over the heap's planks (the `for` loop folding
`select_planks_fitting_length_goal` from the default step). -/
def scanRow (the_plank_heap : PlankHeap) (deck_length : Nat)
    (previous_line_junctions : List Junction) : CalepineStep :=
  the_plank_heap.planks.foldl
    (select_planks_fitting_length_goal deck_length previous_line_junctions)
    CalepineStep.init

/-- The general-path working state after the single greedy pass over the
heap followed by the one-shot retry of the stashed plank (the body of
`select_planks_for_line` between the special case and the final length
check). -/
def generalRowStep (the_plank_heap : PlankHeap) (deck_length : Nat)
    (previous_line_junctions : List Junction) : CalepineStep :=
  match (scanRow the_plank_heap deck_length previous_line_junctions).stash with
  | some plank =>
    select_planks_fitting_length_goal deck_length previous_line_junctions
      { scanRow the_plank_heap deck_length previous_line_junctions with
          stash := none } plank
  | none => scanRow the_plank_heap deck_length previous_line_junctions

/-- `assert_length_goal_fulfilled`: below the goal, fail with
`NotEnoughPlanks` when nothing remains and otherwise with
`OnlyUnusablePlanksRemaining` carrying the step's diagnostic. -/
def assert_length_goal_fulfilled (step : CalepineStep) (deck_length : Nat) :
    Except CalepinageError CalepineStep :=
  if step.selected.total_length < deck_length then
    if step.remaining.total_length = 0 then
      Except.error CalepinageError.NotEnoughPlanks
    else
      Except.error (CalepinageError.OnlyUnusablePlanksRemaining step.toText)
  else
    Except.ok step

/-- `select_planks_for_line`: one row's selection.  The `[10, 10, 2, 2]`
heap is special-cased (and skips the length-goal check); otherwise a single
greedy pass runs over the heap, the stashed plank (if any) is retried once
against the updated step, and the length goal is validated. -/
def select_planks_for_line (the_plank_heap : PlankHeap) (deck_length : Nat)
    (previous_line_junctions : List Junction) :
    Except CalepinageError CalepineStep :=
  if the_plank_heap.planks = [⟨10⟩, ⟨10⟩, ⟨2⟩, ⟨2⟩] then
    Except.ok (specialCaseStep previous_line_junctions)
  else
    assert_length_goal_fulfilled
      (generalRowStep the_plank_heap deck_length previous_line_junctions)
      deck_length

/-- The comparator `decreasing_length` (`b.length.cmp(&a.length)` orders
planks by decreasing length). -/
def decreasingLength (a b : Plank) : Prop := b.length ≤ a.length

instance : DecidableRel decreasingLength := fun a b => Nat.decLe _ _

/-- The sort performed by `calepine` on the rebuilt heap.  Rust's stable
`sort_by` yields the unique `decreasingLength`-sorted permutation (planks of
equal length are indistinguishable values), which insertion sort computes. -/
def sortPlanksDesc (l : List Plank) : List Plank :=
  List.insertionSort decreasingLength l

/-- The previous line's junction set for the next row:
`calepinage.0.last().map_or_else(HashSet::new, |l| l.compute_junction())`. -/
def previousJunctions (c : Calepinage) : List Junction :=
  match c.lines.getLast? with
  | none => []
  | some line => line.compute_junction

/-- The `for _ in 0..deck.width` loop of `calepine`, one iteration per row:
select a row from the current heap against the last line's junctions, thread
the remaining planks, and append the selected planks as a new line. -/
def calepineLoop (deck_length : Nat) :
    Nat → PlankHeap → Calepinage → Except CalepinageError Calepinage
  | 0, _, calepinage => Except.ok calepinage
  | n + 1, the_plank_heap, calepinage => do
    let step ← select_planks_for_line the_plank_heap deck_length
      (previousJunctions calepinage)
    calepineLoop deck_length n step.remaining
      (calepinage.with_line ⟨step.selected.planks⟩)

/-- `calepine`: rebuild the heap from its planks, sort descending by length,
then run the row loop `deck.width` times starting from an empty layout. -/
def calepine (plank_heap : PlankHeap) (deck : Deck) :
    Except CalepinageError Calepinage :=
  let the_plank_heap := PlankHeap.from_planks plank_heap.planks
  let sorted_heap : PlankHeap :=
    { the_plank_heap with planks := sortPlanksDesc the_plank_heap.planks }
  calepineLoop deck.length deck.width sorted_heap ⟨[]⟩

instance {e a : Type} [DecidableEq e] [DecidableEq a] : DecidableEq (Except e a) :=
  fun x y =>
  match x, y with
  | .error u, .error v =>
    if h : u = v then isTrue (by rw [h]) else isFalse (by simp [h])
  | .error _, .ok _ => isFalse (by simp)
  | .ok _, .error _ => isFalse (by simp)
  | .ok u, .ok v =>
    if h : u = v then isTrue (by rw [h]) else isFalse (by simp [h])

/-! ### Basic facts about heaps, sums and the data model -/

/-- The sum of the lengths of a list of planks. -/
def sumLen (l : List Plank) : Nat := (l.map Plank.length).sum

/-- A heap is well formed when its cached total equals the sum of its
planks' lengths. -/
def PlankHeap.WF (h : PlankHeap) : Prop := h.total_length = sumLen h.planks

theorem sumLen_nil : sumLen [] = 0 := rfl

theorem sumLen_cons (p : Plank) (l : List Plank) :
    sumLen (p :: l) = p.length + sumLen l := by
  simp [sumLen]

theorem sumLen_append (l₁ l₂ : List Plank) :
    sumLen (l₁ ++ l₂) = sumLen l₁ + sumLen l₂ := by
  simp [sumLen]

theorem sumLen_replicate (c n : Nat) :
    sumLen (List.replicate c ⟨n⟩) = c * n := by
  induction c with
  | zero => simp [sumLen]
  | succ c ih =>
    rw [List.replicate_succ, sumLen_cons, ih, Nat.succ_mul, Nat.add_comm]

theorem PlankHeap.add_planks (h : PlankHeap) (c n : Nat) :
    (h.add c n).planks = h.planks ++ List.replicate c ⟨n⟩ := rfl

theorem PlankHeap.add_total (h : PlankHeap) (c n : Nat) :
    (h.add c n).total_length = h.total_length + c * n := rfl

theorem PlankHeap.WF_new : PlankHeap.new.WF := rfl

theorem PlankHeap.WF_add {h : PlankHeap} (hw : h.WF) (c n : Nat) :
    (h.add c n).WF := by
  unfold PlankHeap.WF at hw ⊢
  rw [PlankHeap.add_planks, PlankHeap.add_total, sumLen_append,
    sumLen_replicate, hw]

theorem eta_plank (p : Plank) : Plank.mk p.length = p := rfl

theorem from_planks_go (l : List Plank) (h : PlankHeap) :
    l.foldl (fun heap plank => heap.add 1 plank.length) h =
      ⟨h.planks ++ l, h.total_length + sumLen l⟩ := by
  induction l generalizing h with
  | nil => simp [sumLen_nil]
  | cons p l ih =>
    rw [List.foldl_cons, ih]
    simp [PlankHeap.add, sumLen_cons]
    omega

theorem from_planks_spec (l : List Plank) :
    PlankHeap.from_planks l = ⟨l, sumLen l⟩ := by
  unfold PlankHeap.from_planks
  rw [from_planks_go]
  simp [PlankHeap.new]

/-! ### Junction computation -/

theorem scanSums_length (a : Nat) (l : List Plank) :
    (scanSums a l).length = l.length := by
  induction l generalizing a with
  | nil => rfl
  | cons p l ih => simp [scanSums, ih]

theorem scanSums_get (a : Nat) (l : List Plank) (i : Nat)
    (hi : i < (scanSums a l).length) :
    (scanSums a l).get ⟨i, hi⟩ = a + sumLen (l.take (i + 1)) := by
  induction l generalizing a i with
  | nil => simp [scanSums] at hi
  | cons p l ih =>
    cases i with
    | zero => simp [scanSums, sumLen_cons, sumLen_nil]
    | succ i =>
      simp only [scanSums, List.get_cons_succ]
      rw [ih]
      have heq : (p :: l).take (i + 1 + 1) = p :: l.take (i + 1) := rfl
      rw [heq, sumLen_cons]
      omega

theorem compute_junction_length (l : Line) :
    l.compute_junction.length = l.planks.length - 1 := by
  unfold Line.compute_junction
  by_cases h : l.planks.length > 1
  · simp [h, scanSums_length]
  · simp [h]
    omega

theorem scanSums_getElem (a : Nat) (l : List Plank) (i : Nat)
    (hi : i < (scanSums a l).length) :
    (scanSums a l)[i] = a + sumLen (l.take (i + 1)) :=
  (List.get_eq_getElem (scanSums a l) ⟨i, hi⟩).symm.trans (scanSums_get a l i hi)

theorem compute_junction_get (l : Line) (i : Nat)
    (hi : i < l.compute_junction.length) :
    l.compute_junction.get ⟨i, hi⟩ = ⟨sumLen (l.planks.take (i + 1))⟩ := by
  have h1 : l.planks.length > 1 := by
    by_contra h
    unfold Line.compute_junction at hi
    rw [if_neg h] at hi
    simp at hi
  have he : l.compute_junction
      = ((scanSums 0 l.planks).map Junction.mk).take (l.planks.length - 1) := by
    unfold Line.compute_junction
    rw [if_pos h1]
  rw [List.get_of_eq he, List.get_eq_getElem, List.getElem_take,
    List.getElem_map, scanSums_getElem]
  simp

/-! ### Claim theorems: data model -/

/-- C6: `compute_junction` on a line of `n` planks returns exactly
`max (n - 1) 0` junctions, the `i`-th being the cumulative sum of the
lengths of the first `i + 1` planks, in plank order; for 0 or 1 planks it
returns the empty sequence. -/
theorem C6_compute_junction (l : Line) :
    l.compute_junction.length = max (l.planks.length - 1) 0 ∧
    (∀ i (hi : i < l.compute_junction.length),
      l.compute_junction.get ⟨i, hi⟩ = ⟨sumLen (l.planks.take (i + 1))⟩) ∧
    (l.planks.length ≤ 1 → l.compute_junction = []) := by
  refine ⟨by simpa using compute_junction_length l, compute_junction_get l, ?_⟩
  intro h
  have hg : ¬ l.planks.length > 1 := by omega
  simp [Line.compute_junction, hg]

/-- C6 witness: on the two-plank line `[3, 1]` the theorem yields a single
junction at offset 3. -/
theorem C6_witness :
    (Line.mk [⟨3⟩, ⟨1⟩]).compute_junction.length = max (2 - 1) 0 ∧
    (Line.mk [⟨3⟩, ⟨1⟩]).compute_junction.get ⟨0, by decide⟩ = ⟨3⟩ := by
  have h := C6_compute_junction ⟨[⟨3⟩, ⟨1⟩]⟩
  refine ⟨h.1, (h.2.1 0 (by decide)).trans (by decide)⟩

/-- C7: `from_planks` caches the sum of the plank lengths, and `add` grows
the plank count by `count` and the cached total by `count * length`, so a
well-formed heap stays well formed under `add`. -/
theorem C7_total_length_invariant :
    (∀ l, (PlankHeap.from_planks l).total_length = sumLen l) ∧
    (∀ (h : PlankHeap) (c n : Nat),
      (h.add c n).planks.length = h.planks.length + c ∧
      (h.add c n).total_length = h.total_length + c * n) ∧
    (∀ (h : PlankHeap) (c n : Nat), h.WF → (h.add c n).WF) := by
  refine ⟨fun l => by rw [from_planks_spec], fun h c n => ⟨?_, rfl⟩,
    fun h c n hw => PlankHeap.WF_add hw c n⟩
  rw [PlankHeap.add_planks]
  simp

/-- C7 witness: concrete instance on the heap `[3]` with cached total 3,
adding two planks of length 5. -/
theorem C7_witness :
    (PlankHeap.from_planks [⟨3⟩, ⟨4⟩]).total_length = 7 ∧
    ((⟨[⟨3⟩], 3⟩ : PlankHeap).add 2 5).planks.length = 1 + 2 ∧
    ((⟨[⟨3⟩], 3⟩ : PlankHeap).add 2 5).WF := by
  refine ⟨(C7_total_length_invariant.1 [⟨3⟩, ⟨4⟩]).trans (by decide), ?_, ?_⟩
  · exact (C7_total_length_invariant.2.1 ⟨[⟨3⟩], 3⟩ 2 5).1
  · exact C7_total_length_invariant.2.2 ⟨[⟨3⟩], 3⟩ 2 5 (by rfl)

theorem plank_new_ok {n : Nat} (hn : n ≤ Plank.MAX_LENGTH) :
    Plank.new n = Except.ok ⟨n⟩ := by
  unfold Plank.new
  rw [if_neg (by omega)]

theorem plank_new_error {n : Nat} (hn : n > Plank.MAX_LENGTH) :
    Plank.new n =
      Except.error ("max length of plank is " ++ toString Plank.MAX_LENGTH) := by
  unfold Plank.new
  rw [if_pos hn]

theorem planksToBeAdded_ok {n : Nat} (hn : n ≤ Plank.MAX_LENGTH) (c : Nat) :
    planksToBeAdded c n = Except.ok (List.replicate c ⟨n⟩) := by
  induction c with
  | zero => rfl
  | succ c ih =>
    unfold planksToBeAdded
    rw [plank_new_ok hn, ih, List.replicate_succ]
    rfl

theorem planksToBeAdded_error {n : Nat} (hn : n > Plank.MAX_LENGTH) {c : Nat}
    (hc : 1 ≤ c) :
    planksToBeAdded c n =
      Except.error ("max length of plank is " ++ toString Plank.MAX_LENGTH) := by
  cases c with
  | zero => omega
  | succ c =>
    unfold planksToBeAdded
    rw [plank_new_error hn]
    rfl

/-- C8 counterexample: with `count = 0` the Rust iterator constructs no
plank at all, so `add(0, 10001)` succeeds even though 10001 exceeds the
plank length bound, contradicting the claim that any over-long length makes
`add` fail. -/
theorem C8_counterexample :
    PlankHeap.new.addChecked 0 10001 = Except.ok PlankHeap.new ∧
    10001 > Plank.MAX_LENGTH := by
  constructor
  · rfl
  · decide

/-- C8 (amended): `add(count, length)` reports the plank construction error
exactly when `count ≥ 1` and `length` exceeds the plank length bound of
10000; otherwise (valid length, or `count = 0` so that no plank is ever
constructed) it returns the heap with `count` planks of that length
appended and the cached total increased by `count * length`. -/
theorem C8_add_checked (h : PlankHeap) (c n : Nat) :
    (n ≤ Plank.MAX_LENGTH ∨ c = 0 →
      h.addChecked c n =
        Except.ok ⟨h.planks ++ List.replicate c ⟨n⟩,
          h.total_length + c * n⟩) ∧
    (1 ≤ c → n > Plank.MAX_LENGTH →
      h.addChecked c n =
        Except.error ("max length of plank is " ++ toString Plank.MAX_LENGTH)) := by
  constructor
  · intro hok
    unfold PlankHeap.addChecked
    rcases hok with hn | hc
    · rw [planksToBeAdded_ok hn]
      rfl
    · subst hc
      rfl
  · intro hc hn
    unfold PlankHeap.addChecked
    rw [planksToBeAdded_error hn hc]
    rfl

/-- C8 witness: adding one plank of length 10001 fails, adding one plank of
length 7 appends it. -/
theorem C8_witness :
    PlankHeap.new.addChecked 1 10001 =
      Except.error ("max length of plank is " ++ toString Plank.MAX_LENGTH) ∧
    PlankHeap.new.addChecked 1 7 =
      Except.ok ⟨[] ++ List.replicate 1 ⟨7⟩, 0 + 1 * 7⟩ := by
  exact ⟨(C8_add_checked PlankHeap.new 1 10001).2 (by decide) (by decide),
    (C8_add_checked PlankHeap.new 1 7).1 (Or.inl (by decide))⟩

/-- C9: zero-length planks are accepted at construction (only the upper
bound of 10000 is checked), while `Deck::new` rejects a zero in either
dimension. -/
theorem C9_zero_length_plank :
    Plank.new 0 = Except.ok ⟨0⟩ ∧
    (∀ w, ∃ e, Deck.new 0 w = Except.error e) ∧
    (∀ l, ∃ e, Deck.new l 0 = Except.error e) := by
  refine ⟨rfl, fun w => ⟨"a deck cant have any zero dimension", ?_⟩,
    fun l => ⟨"a deck cant have any zero dimension", ?_⟩⟩
  · simp [Deck.new]
  · simp [Deck.new]

/-! ### Sorting and permutation invariance -/

instance : IsTotal Plank decreasingLength :=
  ⟨fun a b => Nat.le_total b.length a.length⟩

instance : IsTrans Plank decreasingLength :=
  ⟨fun _ _ _ hab hbc => Nat.le_trans hbc hab⟩

instance : IsAntisymm Plank decreasingLength :=
  ⟨fun a b h1 h2 => by
    cases a
    cases b
    simp [decreasingLength] at h1 h2 ⊢
    omega⟩

theorem sortPlanksDesc_eq_of_perm {l₁ l₂ : List Plank} (h : l₁.Perm l₂) :
    sortPlanksDesc l₁ = sortPlanksDesc l₂ :=
  List.eq_of_perm_of_sorted
    ((List.perm_insertionSort decreasingLength l₁).trans
      (h.trans (List.perm_insertionSort decreasingLength l₂).symm))
    (List.sorted_insertionSort decreasingLength l₁)
    (List.sorted_insertionSort decreasingLength l₂)

/-- C10: the result of `calepine` depends only on the multiset of plank
lengths in the input heap (and the deck): the heap is rebuilt from its
planks and sorted descending before any row is processed. -/
theorem C10_permutation_invariant (h₁ h₂ : PlankHeap) (d : Deck)
    (hperm : h₁.planks.Perm h₂.planks) :
    calepine h₁ d = calepine h₂ d := by
  have hsum : sumLen h₁.planks = sumLen h₂.planks := by
    unfold sumLen
    exact (hperm.map Plank.length).sum_eq
  unfold calepine
  simp only [from_planks_spec]
  rw [sortPlanksDesc_eq_of_perm hperm, hsum]

/-- C10 witness: the heaps `[5, 3]` and `[3, 5]` (whatever their cached
totals) give the same layout for a 8×1 deck. -/
theorem C10_witness :
    calepine (⟨[⟨5⟩, ⟨3⟩], 8⟩ : PlankHeap) (⟨8, 1⟩ : Deck)
      = calepine (⟨[⟨3⟩, ⟨5⟩], 0⟩ : PlankHeap) (⟨8, 1⟩ : Deck) :=
  C10_permutation_invariant (⟨[⟨5⟩, ⟨3⟩], 8⟩ : PlankHeap)
    (⟨[⟨3⟩, ⟨5⟩], 0⟩ : PlankHeap) (⟨8, 1⟩ : Deck) (List.Perm.swap (⟨3⟩ : Plank) (⟨5⟩ : Plank) [])

/-! ### Row selection: the general greedy path -/

/-- A generic invariant-preservation principle for `List.foldl`. -/
theorem foldl_inv {α β : Type} (f : β → α → β) {P : β → Prop}
    (h : ∀ b a, P b → P (f b a)) :
    ∀ (l : List α) (b : β), P b → P (l.foldl f b) := by
  intro l
  induction l with
  | nil => intro b hb; exact hb
  | cons a l ih => intro b hb; exact ih (f b a) (h b a hb)

/-- The three-way case split of one greedy step, with the `let`s of the
source resolved. -/
theorem phase_eq (D : Nat) (J : List Junction) (s : CalepineStep) (p : Plank) :
    select_planks_fitting_length_goal D J s p =
      if s.selected.total_length + p.length > D then
        { s with remaining := s.remaining.add 1 p.length }
      else if (⟨s.selected.total_length + p.length⟩ : Junction) ∈ J then
        { s with stash := some p }
      else
        { s with selected := s.selected.add 1 p.length } := rfl

/-- A step state whose two heaps are well formed. -/
def StepWF (s : CalepineStep) : Prop := s.selected.WF ∧ s.remaining.WF

theorem StepWF_init : StepWF CalepineStep.init :=
  ⟨PlankHeap.WF_new, PlankHeap.WF_new⟩

theorem StepWF_phase (D : Nat) (J : List Junction) (s : CalepineStep)
    (p : Plank) (hs : StepWF s) :
    StepWF (select_planks_fitting_length_goal D J s p) := by
  rw [phase_eq]
  split
  · exact ⟨hs.1, PlankHeap.WF_add hs.2 1 p.length⟩
  · split
    · exact hs
    · exact ⟨PlankHeap.WF_add hs.1 1 p.length, hs.2⟩

/-- The selected total never exceeds the deck length on the general path. -/
theorem phase_total_le (D : Nat) (J : List Junction) (s : CalepineStep)
    (p : Plank) (hs : s.selected.total_length ≤ D) :
    (select_planks_fitting_length_goal D J s p).selected.total_length ≤ D := by
  rw [phase_eq]
  split
  · exact hs
  · split
    · exact hs
    · rw [PlankHeap.add_total]
      omega

theorem scanRow_WF (h : PlankHeap) (D : Nat) (J : List Junction) :
    StepWF (scanRow h D J) :=
  foldl_inv _ (StepWF_phase D J) h.planks CalepineStep.init StepWF_init

theorem generalRowStep_WF (h : PlankHeap) (D : Nat) (J : List Junction) :
    StepWF (generalRowStep h D J) := by
  unfold generalRowStep
  have h0 := scanRow_WF h D J
  split
  · apply StepWF_phase
    exact ⟨h0.1, h0.2⟩
  · exact h0

theorem scanRow_total_le (h : PlankHeap) (D : Nat) (J : List Junction) :
    (scanRow h D J).selected.total_length ≤ D :=
  foldl_inv _ (phase_total_le D J) h.planks CalepineStep.init (Nat.zero_le D)

theorem generalRowStep_total_le (h : PlankHeap) (D : Nat) (J : List Junction) :
    (generalRowStep h D J).selected.total_length ≤ D := by
  unfold generalRowStep
  have h0 := scanRow_total_le h D J
  split
  · apply phase_total_le
    exact h0
  · exact h0

/-- Characterisation of the length-goal check on success. -/
theorem assert_ok_iff (s t : CalepineStep) (D : Nat) :
    assert_length_goal_fulfilled s D = Except.ok t ↔
      t = s ∧ D ≤ s.selected.total_length := by
  unfold assert_length_goal_fulfilled
  split
  · rename_i hlt
    constructor
    · intro hcontra
      split at hcontra <;> simp at hcontra
    · intro hconj
      omega
  · rename_i hge
    constructor
    · intro heq
      injection heq with heq
      exact ⟨heq.symm, by omega⟩
    · intro hconj
      rw [hconj.1]

/-- The special-case result when the first junction collides. -/
theorem specialCaseStep_mem (J : List Junction) (hm : (⟨10⟩ : Junction) ∈ J) :
    specialCaseStep J =
      ⟨⟨[⟨2⟩, ⟨10⟩], 12⟩, ⟨[⟨2⟩, ⟨10⟩], 12⟩, none⟩ := by
  unfold specialCaseStep
  rw [if_pos]
  · rfl
  · simpa using hm

/-- The special-case result when the first junction does not collide. -/
theorem specialCaseStep_not_mem (J : List Junction)
    (hm : (⟨10⟩ : Junction) ∉ J) :
    specialCaseStep J =
      ⟨⟨[⟨10⟩, ⟨2⟩], 12⟩, ⟨[⟨10⟩, ⟨2⟩], 12⟩, none⟩ := by
  unfold specialCaseStep
  rw [if_neg]
  · rfl
  · simpa using hm

/-- On success, a row's selected planks are either a well-formed heap whose
total meets the deck length, or one of the two special-case lines. -/
theorem row_ok_cases (h : PlankHeap) (D : Nat) (J : List Junction)
    (step : CalepineStep)
    (hok : select_planks_for_line h D J = Except.ok step) :
    (step = generalRowStep h D J ∧ D ≤ step.selected.total_length ∧
      StepWF step) ∨
    step.selected.planks = [⟨2⟩, ⟨10⟩] ∨ step.selected.planks = [⟨10⟩, ⟨2⟩] := by
  unfold select_planks_for_line at hok
  split at hok
  · right
    injection hok with hok
    subst hok
    by_cases hm : (⟨10⟩ : Junction) ∈ J
    · rw [specialCaseStep_mem J hm]
      left
      rfl
    · rw [specialCaseStep_not_mem J hm]
      right
      rfl
  · left
    have := (assert_ok_iff _ step D).mp hok
    obtain ⟨ht, hle⟩ := this
    subst ht
    exact ⟨rfl, hle, generalRowStep_WF h D J⟩

/-- On success, a row's line either meets the deck length or is a
special-case line of total 12. -/
theorem row_line_total (h : PlankHeap) (D : Nat) (J : List Junction)
    (step : CalepineStep)
    (hok : select_planks_for_line h D J = Except.ok step) :
    D ≤ sumLen step.selected.planks ∨ sumLen step.selected.planks = 12 := by
  rcases row_ok_cases h D J step hok with ⟨_, hle, hwf, _⟩ | hsp | hsp
  · left
    have hwf1 : step.selected.total_length = sumLen step.selected.planks := hwf
    rw [← hwf1]
    exact hle
  · right
    rw [hsp]
    rfl
  · right
    rw [hsp]
    rfl

/-! ### Further facts about prefix sums -/

theorem scanSums_append (a : Nat) (l₁ l₂ : List Plank) :
    scanSums a (l₁ ++ l₂) = scanSums a l₁ ++ scanSums (a + sumLen l₁) l₂ := by
  induction l₁ generalizing a with
  | nil => simp [scanSums, sumLen_nil]
  | cons p l ih =>
    show (a + p.length) :: scanSums (a + p.length) (l ++ l₂)
        = scanSums a (p :: l) ++ scanSums (a + sumLen (p :: l)) l₂
    rw [ih, sumLen_cons, ← Nat.add_assoc]
    rfl

theorem scanSums_ge (a : Nat) (l : List Plank) :
    ∀ x ∈ scanSums a l, a ≤ x := by
  induction l generalizing a with
  | nil => intro x hx; simp [scanSums] at hx
  | cons p l ih =>
    intro x hx
    rcases List.mem_cons.mp hx with hx | hx
    · omega
    · have := ih (a + p.length) x hx
      omega

theorem scanSums_le_sum (a : Nat) (l : List Plank) :
    ∀ x ∈ scanSums a l, x ≤ a + sumLen l := by
  induction l generalizing a with
  | nil => intro x hx; simp [scanSums] at hx
  | cons p l ih =>
    intro x hx
    rcases List.mem_cons.mp hx with hx | hx
    · rw [sumLen_cons]
      omega
    · have := ih (a + p.length) x hx
      rw [sumLen_cons]
      omega

theorem scanSums_head_le (a : Nat) (p : Plank) (l : List Plank) :
    ∀ x ∈ scanSums a (p :: l), a + p.length ≤ x := by
  intro x hx
  rcases List.mem_cons.mp hx with hx | hx
  · omega
  · exact scanSums_ge (a + p.length) l x hx

/-- Every junction of a line is one of the prefix sums of its planks. -/
theorem junction_mem_scanSums (planks : List Plank) (j : Junction)
    (hj : j ∈ (Line.mk planks).compute_junction) :
    j.offset ∈ scanSums 0 planks := by
  unfold Line.compute_junction at hj
  split at hj
  · have hj2 := List.take_subset _ _ hj
    rcases List.mem_map.mp hj2 with ⟨x, hx, hxj⟩
    rw [← hxj]
    exact hx
  · simp at hj

/-! ### Junction avoidance on the general path -/

/-- No prefix sum of the selected planks collides with a previous-line
junction: the invariant maintained by the greedy pass. -/
def NoJunc (J : List Junction) (s : CalepineStep) : Prop :=
  ∀ x ∈ scanSums 0 s.selected.planks, (⟨x⟩ : Junction) ∉ J

theorem NoJunc_init (J : List Junction) : NoJunc J CalepineStep.init := by
  intro x hx
  simp [CalepineStep.init, PlankHeap.new, scanSums] at hx

theorem NoJunc_phase (D : Nat) (J : List Junction) (s : CalepineStep)
    (p : Plank) (hwf : StepWF s) (hs : NoJunc J s) :
    NoJunc J (select_planks_fitting_length_goal D J s p) := by
  rw [phase_eq]
  split
  · exact hs
  · split
    · exact hs
    · rename_i hfit hnomem
      intro x hx
      rw [PlankHeap.add_planks, List.replicate_one, eta_plank,
        scanSums_append] at hx
      rcases List.mem_append.mp hx with hx | hx
      · exact hs x hx
      · have hx2 : x = 0 + sumLen s.selected.planks + p.length := by
          simpa [scanSums] using hx
        have hwf1 : s.selected.total_length = sumLen s.selected.planks := hwf.1
        rw [hx2]
        have : 0 + sumLen s.selected.planks + p.length
            = s.selected.total_length + p.length := by omega
        rw [this]
        exact hnomem

/-- Joint invariant: well-formed heaps and junction avoidance. -/
theorem WFNoJunc_phase (D : Nat) (J : List Junction) (s : CalepineStep)
    (p : Plank) (hs : StepWF s ∧ NoJunc J s) :
    StepWF (select_planks_fitting_length_goal D J s p) ∧
      NoJunc J (select_planks_fitting_length_goal D J s p) :=
  ⟨StepWF_phase D J s p hs.1, NoJunc_phase D J s p hs.1 hs.2⟩

theorem scanRow_NoJunc (h : PlankHeap) (D : Nat) (J : List Junction) :
    NoJunc J (scanRow h D J) :=
  (foldl_inv _ (WFNoJunc_phase D J) h.planks CalepineStep.init
    ⟨StepWF_init, NoJunc_init J⟩).2

theorem generalRowStep_NoJunc (h : PlankHeap) (D : Nat) (J : List Junction) :
    NoJunc J (generalRowStep h D J) := by
  unfold generalRowStep
  split
  · rename_i plank hstash
    have h1 : StepWF { scanRow h D J with stash := none } :=
      ⟨(scanRow_WF h D J).1, (scanRow_WF h D J).2⟩
    have h2 : NoJunc J { scanRow h D J with stash := none } :=
      scanRow_NoJunc h D J
    exact NoJunc_phase D J _ plank h1 h2
  · exact scanRow_NoJunc h D J

/-- The junctions of a line built on the general path avoid all junctions
of the previous line. -/
theorem generalRowStep_junctions_avoid (h : PlankHeap) (D : Nat)
    (J : List Junction) :
    ∀ j ∈ (Line.mk (generalRowStep h D J).selected.planks).compute_junction,
      j ∉ J := by
  intro j hj
  have hx := junction_mem_scanSums _ j hj
  have := generalRowStep_NoJunc h D J j.offset hx
  simpa using this

/-! ### Structure of the scan: growth, provenance, first accept -/

theorem phase_selected_cases (D : Nat) (J : List Junction) (s : CalepineStep)
    (p : Plank) :
    (select_planks_fitting_length_goal D J s p).selected.planks
        = s.selected.planks ∨
    (select_planks_fitting_length_goal D J s p).selected.planks
        = s.selected.planks ++ [p] := by
  rw [phase_eq]
  split
  · exact Or.inl rfl
  · split
    · exact Or.inl rfl
    · right
      rw [PlankHeap.add_planks, List.replicate_one, eta_plank]

theorem phase_remaining_cases (D : Nat) (J : List Junction) (s : CalepineStep)
    (p : Plank) :
    (select_planks_fitting_length_goal D J s p).remaining.planks
        = s.remaining.planks ∨
    (select_planks_fitting_length_goal D J s p).remaining.planks
        = s.remaining.planks ++ [p] := by
  rw [phase_eq]
  split
  · right
    rw [PlankHeap.add_planks, List.replicate_one, eta_plank]
  · split
    · exact Or.inl rfl
    · exact Or.inl rfl

theorem phase_stash_cases (D : Nat) (J : List Junction) (s : CalepineStep)
    (p : Plank) :
    (select_planks_fitting_length_goal D J s p).stash = s.stash ∨
    (select_planks_fitting_length_goal D J s p).stash = some p := by
  rw [phase_eq]
  split
  · exact Or.inl rfl
  · split
    · exact Or.inr rfl
    · exact Or.inl rfl

/-- Selected planks only grow, by appending at the end. -/
theorem scan_selected_append (D : Nat) (J : List Junction) :
    ∀ (l : List Plank) (s : CalepineStep),
    ∃ sel₂,
      (l.foldl (select_planks_fitting_length_goal D J) s).selected.planks
        = s.selected.planks ++ sel₂ := by
  intro l
  induction l with
  | nil => exact fun s => ⟨[], by simp⟩
  | cons p l ih =>
    intro s
    obtain ⟨sel₂, hsel⟩ := ih (select_planks_fitting_length_goal D J s p)
    rw [List.foldl_cons]
    rcases phase_selected_cases D J s p with hc | hc
    · exact ⟨sel₂, by rw [hsel, hc]⟩
    · exact ⟨p :: sel₂, by rw [hsel, hc, List.append_assoc]; rfl⟩

/-- Rejected planks accumulate at the end of `remaining`, in scan order:
the new part is a sublist of the scanned list. -/
theorem scan_remaining_append (D : Nat) (J : List Junction) :
    ∀ (l : List Plank) (s : CalepineStep),
    ∃ rej,
      (l.foldl (select_planks_fitting_length_goal D J) s).remaining.planks
        = s.remaining.planks ++ rej ∧ rej.Sublist l := by
  intro l
  induction l with
  | nil => exact fun s => ⟨[], by simp, List.nil_sublist []⟩
  | cons p l ih =>
    intro s
    obtain ⟨rej, hrem, hsub⟩ := ih (select_planks_fitting_length_goal D J s p)
    rw [List.foldl_cons]
    rcases phase_remaining_cases D J s p with hc | hc
    · exact ⟨rej, by rw [hrem, hc], hsub.cons p⟩
    · refine ⟨p :: rej, ?_, hsub.cons₂ p⟩
      rw [hrem, hc, List.append_assoc]
      rfl

/-- The stash at the end of a scan either survived from the start or holds
one of the scanned planks. -/
theorem scan_stash_cases (D : Nat) (J : List Junction) :
    ∀ (l : List Plank) (s : CalepineStep),
    (l.foldl (select_planks_fitting_length_goal D J) s).stash = s.stash ∨
    ∃ q ∈ l,
      (l.foldl (select_planks_fitting_length_goal D J) s).stash = some q := by
  intro l
  induction l with
  | nil => exact fun s => Or.inl rfl
  | cons p l ih =>
    intro s
    rw [List.foldl_cons]
    rcases ih (select_planks_fitting_length_goal D J s p) with hc | ⟨q, hq, hc⟩
    · rcases phase_stash_cases D J s p with hc' | hc'
      · exact Or.inl (hc.trans hc')
      · exact Or.inr ⟨p, List.mem_cons_self p l, hc.trans hc'⟩
    · exact Or.inr ⟨q, List.mem_cons_of_mem p hq, hc⟩

/-- Decomposition of a scan that starts with nothing selected: either no
plank is ever accepted, or the scanned list splits around the first
accepted plank `p₁`; everything rejected before `p₁` overshoots the deck
length on its own, and the scan continues from the state holding exactly
`[p₁]`. -/
theorem scan_first_accept (D : Nat) (J : List Junction) :
    ∀ (l : List Plank) (s : CalepineStep),
    s.selected.planks = [] → s.selected.total_length = 0 →
    (l.foldl (select_planks_fitting_length_goal D J) s).selected.planks = []
    ∨ ∃ l₁ p₁ l₂ s₁,
        l = l₁ ++ p₁ :: l₂ ∧
        l.foldl (select_planks_fitting_length_goal D J) s
          = l₂.foldl (select_planks_fitting_length_goal D J) s₁ ∧
        s₁.selected.planks = [p₁] ∧
        ∃ r₁, s₁.remaining.planks = s.remaining.planks ++ r₁ ∧
          ∀ q ∈ r₁, q.length > D := by
  intro l
  induction l with
  | nil =>
    intro s hsel _
    exact Or.inl hsel
  | cons p l ih =>
    intro s hsel htot
    rw [List.foldl_cons]
    by_cases h1 : s.selected.total_length + p.length > D
    · have hov : select_planks_fitting_length_goal D J s p
          = { s with remaining := s.remaining.add 1 p.length } := by
        rw [phase_eq, if_pos h1]
      have hsel' : (select_planks_fitting_length_goal D J s p).selected.planks
          = [] := by rw [hov]; exact hsel
      have htot' : (select_planks_fitting_length_goal D J
          s p).selected.total_length = 0 := by rw [hov]; exact htot
      rcases ih _ hsel' htot' with hleft | ⟨l₁, p₁, l₂, s₁, heq, hfold, hone, r₁, hrem, hbig⟩
      · exact Or.inl hleft
      · refine Or.inr ⟨p :: l₁, p₁, l₂, s₁, by rw [heq]; rfl, hfold, hone,
          p :: r₁, ?_, ?_⟩
        · rw [hrem, hov]
          show (s.remaining.add 1 p.length).planks ++ r₁ = _
          rw [PlankHeap.add_planks, List.replicate_one, eta_plank,
            List.append_assoc]
          rfl
        · intro q hq
          rcases List.mem_cons.mp hq with hq | hq
          · subst hq
            omega
          · exact hbig q hq
    · by_cases h2 : (⟨s.selected.total_length + p.length⟩ : Junction) ∈ J
      · have hst : select_planks_fitting_length_goal D J s p
            = { s with stash := some p } := by
          rw [phase_eq, if_neg h1, if_pos h2]
        have hsel' : (select_planks_fitting_length_goal D J
            s p).selected.planks = [] := by rw [hst]; exact hsel
        have htot' : (select_planks_fitting_length_goal D J
            s p).selected.total_length = 0 := by rw [hst]; exact htot
        rcases ih _ hsel' htot' with hleft | ⟨l₁, p₁, l₂, s₁, heq, hfold, hone, r₁, hrem, hbig⟩
        · exact Or.inl hleft
        · refine Or.inr ⟨p :: l₁, p₁, l₂, s₁, by rw [heq]; rfl, hfold, hone,
            r₁, ?_, hbig⟩
          rw [hrem, hst]
      · have hac : select_planks_fitting_length_goal D J s p
            = { s with selected := s.selected.add 1 p.length } := by
          rw [phase_eq, if_neg h1, if_neg h2]
        refine Or.inr ⟨[], p, l, select_planks_fitting_length_goal D J s p,
          rfl, rfl, ?_, [], by rw [hac]; simp, by intro q hq; simp at hq⟩
        rw [hac]
        show (s.selected.add 1 p.length).planks = [p]
        rw [PlankHeap.add_planks, List.replicate_one, eta_plank, hsel]
        rfl

/-! ### The ten-block argument -/

/-- Once a plank of length 10 overshoots, every further 10 overshoots too:
the stash and the selected total are untouched by a run of overshooting
tens. -/
theorem block_overshoot (D : Nat) (J : List Junction) :
    ∀ (B : List Plank) (s : CalepineStep),
    (∀ q ∈ B, q = (⟨10⟩ : Plank)) → s.selected.total_length + 10 > D →
    (B.foldl (select_planks_fitting_length_goal D J) s).stash = s.stash ∧
    (B.foldl (select_planks_fitting_length_goal D J)
        s).selected.total_length = s.selected.total_length := by
  intro B
  induction B with
  | nil => exact fun s _ _ => ⟨rfl, rfl⟩
  | cons q B ih =>
    intro s hB hov
    have hq : q = (⟨10⟩ : Plank) := hB q (List.mem_cons_self q B)
    have hqlen : q.length = 10 := by rw [hq]
    have hstep : select_planks_fitting_length_goal D J s q
        = { s with remaining := s.remaining.add 1 q.length } := by
      rw [phase_eq, if_pos (by omega)]
    rw [List.foldl_cons, hstep]
    exact ih _ (fun r hr => hB r (List.mem_cons_of_mem q hr)) hov

/-- Once a 10 is stashed at some total, every further 10 re-stashes at the
same total: `remaining` and the selected total are untouched by a run of
colliding tens. -/
theorem block_stash_run (D : Nat) (J : List Junction) :
    ∀ (B : List Plank) (s : CalepineStep),
    (∀ q ∈ B, q = (⟨10⟩ : Plank)) →
    s.selected.total_length + 10 ≤ D →
    (⟨s.selected.total_length + 10⟩ : Junction) ∈ J →
    (B.foldl (select_planks_fitting_length_goal D J)
        s).remaining.planks = s.remaining.planks ∧
    (B.foldl (select_planks_fitting_length_goal D J)
        s).selected.total_length = s.selected.total_length := by
  intro B
  induction B with
  | nil => exact fun s _ _ _ => ⟨rfl, rfl⟩
  | cons q B ih =>
    intro s hB hle hmem
    have hq : q = (⟨10⟩ : Plank) := hB q (List.mem_cons_self q B)
    have hqlen : q.length = 10 := by rw [hq]
    have hstep : select_planks_fitting_length_goal D J s q
        = { s with stash := some q } := by
      rw [phase_eq, if_neg (by omega), if_pos (by rw [hqlen]; exact hmem)]
    rw [List.foldl_cons, hstep]
    exact ih _ (fun r hr => hB r (List.mem_cons_of_mem q hr)) hle hmem

/-- Scanning a contiguous run of tens either rejects nothing (all tens were
accepted or stashed) or stashes nothing (the stash survives the run). -/
theorem block_cases (D : Nat) (J : List Junction) :
    ∀ (B : List Plank) (s : CalepineStep),
    (∀ q ∈ B, q = (⟨10⟩ : Plank)) →
    (B.foldl (select_planks_fitting_length_goal D J)
        s).remaining.planks = s.remaining.planks ∨
    (B.foldl (select_planks_fitting_length_goal D J) s).stash = s.stash := by
  intro B
  induction B with
  | nil => exact fun s _ => Or.inl rfl
  | cons q B ih =>
    intro s hB
    have hq : q = (⟨10⟩ : Plank) := hB q (List.mem_cons_self q B)
    have hqlen : q.length = 10 := by rw [hq]
    have hBtail : ∀ r ∈ B, r = (⟨10⟩ : Plank) :=
      fun r hr => hB r (List.mem_cons_of_mem q hr)
    rw [List.foldl_cons]
    by_cases h1 : s.selected.total_length + 10 > D
    · right
      have hstep : select_planks_fitting_length_goal D J s q
          = { s with remaining := s.remaining.add 1 q.length } := by
        rw [phase_eq, if_pos (by omega)]
      rw [hstep]
      exact (block_overshoot D J B
        { s with remaining := s.remaining.add 1 q.length } hBtail h1).1
    · by_cases h2 : (⟨s.selected.total_length + 10⟩ : Junction) ∈ J
      · left
        have hstep : select_planks_fitting_length_goal D J s q
            = { s with stash := some q } := by
          rw [phase_eq, if_neg (by omega), if_pos (by rw [hqlen]; exact h2)]
        rw [hstep]
        exact (block_stash_run D J B
          { s with stash := some q } hBtail
          (by show s.selected.total_length + 10 ≤ D; omega) h2).1
      · have hstep : select_planks_fitting_length_goal D J s q
            = { s with selected := s.selected.add 1 q.length } := by
          rw [phase_eq, if_neg (by omega), if_neg (by rw [hqlen]; exact h2)]
        rw [hstep]
        rcases ih _ hBtail with hc | hc
        · exact Or.inl hc
        · exact Or.inr hc

/-- Scanning a list without tens adds no ten to `remaining`. -/
theorem scan_no_ten_remaining (D : Nat) (J : List Junction)
    (l : List Plank) (s : CalepineStep)
    (hl : (⟨10⟩ : Plank) ∉ l) (hs : (⟨10⟩ : Plank) ∉ s.remaining.planks) :
    (⟨10⟩ : Plank) ∉
      (l.foldl (select_planks_fitting_length_goal D J) s).remaining.planks := by
  obtain ⟨rej, hrem, hsub⟩ := scan_remaining_append D J l s
  rw [hrem]
  intro hmem
  rcases List.mem_append.mp hmem with hmem | hmem
  · exact hs hmem
  · exact hl (hsub.subset hmem)

/-- A ten in the stash after scanning a list without tens was already there
before. -/
theorem scan_no_ten_stash (D : Nat) (J : List Junction)
    (l : List Plank) (s : CalepineStep) (hl : (⟨10⟩ : Plank) ∉ l)
    (hst : (l.foldl (select_planks_fitting_length_goal D J) s).stash
      = some ⟨10⟩) :
    s.stash = some (⟨10⟩ : Plank) := by
  rcases scan_stash_cases D J l s with hc | ⟨q, hq, hc⟩
  · rw [← hc]
    exact hst
  · rw [hc] at hst
    injection hst with hst
    rw [hst] at hq
    exact absurd hq hl

/-- Planks of non-increasing length have their tens in one contiguous
block. -/
theorem ten_block_decomp (dp : List Plank)
    (hp : dp.Pairwise decreasingLength) :
    ∃ pre B post, dp = pre ++ B ++ post ∧
      (∀ q ∈ B, q = (⟨10⟩ : Plank)) ∧
      (⟨10⟩ : Plank) ∉ pre ∧ (⟨10⟩ : Plank) ∉ post := by
  induction dp with
  | nil => exact ⟨[], [], [], rfl, by simp, by simp, by simp⟩
  | cons q dp ih =>
    rw [List.pairwise_cons] at hp
    obtain ⟨hq, hdp⟩ := hp
    obtain ⟨pre, B, post, heq, hB, hpre, hpost⟩ := ih hdp
    by_cases hq10 : q = (⟨10⟩ : Plank)
    · cases hBnil : B with
      | nil =>
        refine ⟨[], [q], dp, by simp, by simp [hq10], by simp, ?_⟩
        intro hmem
        rw [heq, hBnil] at hmem
        simp at hmem
        rcases hmem with hmem | hmem
        · exact hpre hmem
        · exact hpost hmem
      | cons b B' =>
        have hpre_nil : pre = [] := by
          cases hpre_eq : pre with
          | nil => rfl
          | cons x pre' =>
            exfalso
            have hxmem : x ∈ dp := by
              rw [heq, hpre_eq]
              simp
            have hx10 : (10 : Nat) ≤ x.length := by
              have hxb : decreasingLength x b := by
                have hpair2 : dp.Pairwise decreasingLength := hdp
                rw [heq, hpre_eq] at hpair2
                have := (List.pairwise_append.mp
                  (by simpa using hpair2 :
                    ((x :: pre') ++ (B ++ post)).Pairwise
                      decreasingLength)).2.2
                refine this x (List.mem_cons_self x pre') b ?_
                rw [hBnil]
                simp
              have hb10 : b = (⟨10⟩ : Plank) := by
                apply hB
                rw [hBnil]
                exact List.mem_cons_self b B'
              rw [hb10] at hxb
              exact hxb
            have hxle : x.length ≤ 10 := by
              have := hq x hxmem
              rw [hq10] at this
              exact this
            have : x = (⟨10⟩ : Plank) := by
              cases x
              simp at hx10 hxle ⊢
              omega
            apply hpre
            rw [hpre_eq, ← this]
            exact List.mem_cons_self x pre'
        refine ⟨[], q :: B, post, ?_, ?_, by simp, hpost⟩
        · rw [heq, hpre_nil]
          rfl
        · intro r hr
          rcases List.mem_cons.mp hr with hr | hr
          · rw [hr]
            exact hq10
          · exact hB r hr
    · refine ⟨q :: pre, B, post, by rw [heq]; rfl, hB, ?_, hpost⟩
      intro hmem
      rcases List.mem_cons.mp hmem with hmem | hmem
      · exact hq10 hmem.symm
      · exact hpre hmem

/-- The multiset of planks held in a stash slot. -/
def stashMultiset : Option Plank → Multiset Plank
  | none => 0
  | some p => {p}

/-- All planks held by a step, as a multiset. -/
def stepMultiset (s : CalepineStep) : Multiset Plank :=
  ↑s.selected.planks + ↑s.remaining.planks + stashMultiset s.stash

theorem stashMultiset_none : stashMultiset none = 0 := rfl

theorem stashMultiset_some (p : Plank) : stashMultiset (some p) = {p} := rfl

theorem stepMultiset_mk (r sel : PlankHeap) (st : Option Plank) :
    stepMultiset ⟨r, sel, st⟩ = ↑sel.planks + ↑r.planks + stashMultiset st :=
  rfl

theorem stepMultiset_def (s : CalepineStep) :
    stepMultiset s =
      ↑s.selected.planks + ↑s.remaining.planks + stashMultiset s.stash := rfl

theorem phase_mult (D : Nat) (J : List Junction) (s : CalepineStep)
    (p : Plank) :
    stepMultiset (select_planks_fitting_length_goal D J s p) ≤
      stepMultiset s + {p} := by
  rw [phase_eq]
  split
  · apply le_of_eq
    rw [stepMultiset_mk, stepMultiset_def, PlankHeap.add_planks,
      List.replicate_one, eta_plank, ← Multiset.coe_add,
      Multiset.coe_singleton]
    abel
  · split
    · rw [stepMultiset_mk, stepMultiset_def, stashMultiset_some]
      exact add_le_add_right (Multiset.le_add_right _ _) _
    · apply le_of_eq
      rw [stepMultiset_mk, stepMultiset_def, PlankHeap.add_planks,
        List.replicate_one, eta_plank, ← Multiset.coe_add,
        Multiset.coe_singleton]
      abel

theorem scan_mult (D : Nat) (J : List Junction) :
    ∀ (l : List Plank) (s : CalepineStep),
    stepMultiset (l.foldl (select_planks_fitting_length_goal D J) s) ≤
      stepMultiset s + ↑l := by
  intro l
  induction l with
  | nil => intro s; simp
  | cons p l ih =>
    intro s
    rw [List.foldl_cons]
    calc stepMultiset ((l.foldl (select_planks_fitting_length_goal D J)
          (select_planks_fitting_length_goal D J s p)))
        ≤ stepMultiset (select_planks_fitting_length_goal D J s p) + ↑l :=
          ih _
      _ ≤ (stepMultiset s + {p}) + ↑l :=
          add_le_add_right (phase_mult D J s p) _
      _ = stepMultiset s + ↑(p :: l) := by
          rw [← Multiset.cons_coe, ← Multiset.singleton_add]
          abel

theorem generalRowStep_mult (h : PlankHeap) (D : Nat) (J : List Junction) :
    stepMultiset (generalRowStep h D J) ≤ ↑h.planks := by
  have hscan : stepMultiset (scanRow h D J) ≤ ↑h.planks := by
    have h0 : stepMultiset CalepineStep.init = 0 := rfl
    have h1 := scan_mult D J h.planks CalepineStep.init
    rw [h0, zero_add] at h1
    exact h1
  unfold generalRowStep
  split
  · rename_i plank hstash
    have h1 := phase_mult D J
      { scanRow h D J with stash := none } plank
    have h2 : stepMultiset { scanRow h D J with stash := none } + {plank}
        = stepMultiset (scanRow h D J) := by
      rw [stepMultiset_mk, stashMultiset_none, stepMultiset_def, hstash,
        stashMultiset_some]
      abel
    exact le_trans (h2 ▸ h1) hscan
  · exact hscan

/-- Conservation bound shared by the row-level invariants: a successful
row never invents planks. -/
theorem select_ok_multiset_le (h : PlankHeap) (D : Nat) (J : List Junction)
    (step : CalepineStep)
    (hok : select_planks_for_line h D J = Except.ok step) :
    stepMultiset step ≤ (↑h.planks : Multiset Plank) := by
  unfold select_planks_for_line at hok
  split at hok
  · rename_i hpat
    injection hok with hok
    subst hok
    rw [hpat]
    by_cases hm : (⟨10⟩ : Junction) ∈ J
    · rw [specialCaseStep_mem J hm]
      decide
    · rw [specialCaseStep_not_mem J hm]
      decide
  · have := (assert_ok_iff _ step D).mp hok
    rw [this.1]
    exact generalRowStep_mult h D J

/-! ### The heap-structure invariant -/

/-- The heap shape maintained across rows: either at most one ten is left,
or the heap splits into a non-increasing front part followed by a tail
holding no ten (the tail collects planks appended by failed stash
retries). -/
def TensInD (l : List Plank) : Prop :=
  l.count (⟨10⟩ : Plank) ≤ 1 ∨
  ∃ dp t, l = dp ++ t ∧ dp.Pairwise decreasingLength ∧ (⟨10⟩ : Plank) ∉ t

/-- If the scan ends with a ten in the stash, no ten was rejected: the run
of tens in the front part either got entirely stashed (each overwriting the
previous, rejecting nothing) or never stashed at all (so the final ten in
the stash could not come from it). -/
theorem stash_ten_no_ten_remaining (h : PlankHeap) (D : Nat)
    (J : List Junction) (dp t : List Plank) (heq : h.planks = dp ++ t)
    (hp : dp.Pairwise decreasingLength) (ht : (⟨10⟩ : Plank) ∉ t)
    (hst : (scanRow h D J).stash = some ⟨10⟩) :
    (⟨10⟩ : Plank) ∉ (scanRow h D J).remaining.planks := by
  obtain ⟨pre, B, post, hdp, hB, hpre, hpost⟩ := ten_block_decomp dp hp
  have hplanks : h.planks = pre ++ (B ++ ((post ++ t))) := by
    rw [heq, hdp]
    simp [List.append_assoc]
  have hsplit : scanRow h D J
      = (post ++ t).foldl (select_planks_fitting_length_goal D J)
        ((pre ++ B).foldl (select_planks_fitting_length_goal D J)
          CalepineStep.init) := by
    unfold scanRow
    rw [hplanks, ← List.append_assoc, List.foldl_append]
  have hnotpt : (⟨10⟩ : Plank) ∉ post ++ t := by
    intro hmem
    rcases List.mem_append.mp hmem with hmem | hmem
    · exact hpost hmem
    · exact ht hmem
  set s2 := (pre ++ B).foldl (select_planks_fitting_length_goal D J)
    CalepineStep.init with hs2
  have hs2stash : s2.stash = some (⟨10⟩ : Plank) := by
    apply scan_no_ten_stash D J (post ++ t) s2 hnotpt
    rw [← hsplit]
    exact hst
  set s1 := pre.foldl (select_planks_fitting_length_goal D J)
    CalepineStep.init with hs1
  have hs2eq : s2 = B.foldl (select_planks_fitting_length_goal D J) s1 := by
    rw [hs2, hs1, List.foldl_append]
  have hs1stash : s1.stash ≠ some (⟨10⟩ : Plank) := by
    intro hcontra
    have := scan_no_ten_stash D J pre CalepineStep.init hpre hcontra
    simp [CalepineStep.init] at this
  have hs2rem : s2.remaining.planks = s1.remaining.planks := by
    rcases block_cases D J B s1 hB with hc | hc
    · rw [hs2eq]
      exact hc
    · exfalso
      apply hs1stash

      rw [← hc, ← hs2eq]
      exact hs2stash
  have hs1ten : (⟨10⟩ : Plank) ∉ s1.remaining.planks := by
    obtain ⟨rej, hrem, hsub⟩ := scan_remaining_append D J pre CalepineStep.init
    rw [hs1, hrem]
    intro hmem
    rcases List.mem_append.mp hmem with hmem | hmem
    · simp [CalepineStep.init, PlankHeap.new] at hmem
    · exact hpre (hsub.subset hmem)
  have : (⟨10⟩ : Plank) ∉
      ((post ++ t).foldl (select_planks_fitting_length_goal D J)
        s2).remaining.planks := by
    apply scan_no_ten_remaining D J (post ++ t) s2 hnotpt
    rw [hs2rem]
    exact hs1ten
  rw [hsplit]
  exact this

/-- The retry step changes `selected` or `remaining` by at most one plank
appended at the end; a plank appended to `remaining` is the stashed one. -/
theorem generalRowStep_parts (h : PlankHeap) (D : Nat) (J : List Junction) :
    ((generalRowStep h D J).selected.planks
        = (scanRow h D J).selected.planks ∨
      ∃ p, (generalRowStep h D J).selected.planks
        = (scanRow h D J).selected.planks ++ [p]) ∧
    ((generalRowStep h D J).remaining.planks
        = (scanRow h D J).remaining.planks ∨
      ∃ p, (scanRow h D J).stash = some p ∧
        (generalRowStep h D J).remaining.planks
          = (scanRow h D J).remaining.planks ++ [p]) := by
  unfold generalRowStep
  split
  · rename_i plank hstash
    constructor
    · rcases phase_selected_cases D J
        { scanRow h D J with stash := none } plank with hc | hc
      · exact Or.inl hc
      · exact Or.inr ⟨plank, hc⟩
    · rcases phase_remaining_cases D J
        { scanRow h D J with stash := none } plank with hc | hc
      · exact Or.inl hc
      · exact Or.inr ⟨plank, hstash, hc⟩
  · exact ⟨Or.inl rfl, Or.inl rfl⟩

/-- The remaining planks of a plain scan split along the heap's own
`dp ++ t` split. -/
theorem scanRow_remaining_split (h : PlankHeap) (D : Nat)
    (J : List Junction) (dp t : List Plank) (heq : h.planks = dp ++ t) :
    ∃ rdp rt, (scanRow h D J).remaining.planks = rdp ++ rt ∧
      rdp.Sublist dp ∧ rt.Sublist t := by
  have hsplit : scanRow h D J
      = t.foldl (select_planks_fitting_length_goal D J)
        (dp.foldl (select_planks_fitting_length_goal D J)
          CalepineStep.init) := by
    unfold scanRow
    rw [heq, List.foldl_append]
  obtain ⟨rdp, hrdp, hsub1⟩ :=
    scan_remaining_append D J dp CalepineStep.init
  obtain ⟨rt, hrt, hsub2⟩ := scan_remaining_append D J t
    (dp.foldl (select_planks_fitting_length_goal D J) CalepineStep.init)
  refine ⟨rdp, rt, ?_, hsub1, hsub2⟩
  rw [hsplit, hrt, hrdp]
  simp [CalepineStep.init, PlankHeap.new]

/-- Counting tens through the conservation bound: a successful row's
remaining planks cannot hold more tens than the input heap. -/
theorem remaining_count_le (h : PlankHeap) (D : Nat) (J : List Junction)
    (step : CalepineStep)
    (hok : select_planks_for_line h D J = Except.ok step) :
    step.remaining.planks.count (⟨10⟩ : Plank)
      ≤ h.planks.count (⟨10⟩ : Plank) := by
  have hle := select_ok_multiset_le h D J step hok
  have hcount := Multiset.count_le_of_le (⟨10⟩ : Plank) hle
  rw [stepMultiset_def] at hcount
  simp only [Multiset.count_add, Multiset.coe_count] at hcount
  omega

/-- One successful row preserves the heap-structure invariant. -/
theorem rowTensInD (h : PlankHeap) (D : Nat) (J : List Junction)
    (step : CalepineStep)
    (hok : select_planks_for_line h D J = Except.ok step)
    (hT : TensInD h.planks) : TensInD step.remaining.planks := by
  unfold select_planks_for_line at hok
  split at hok
  · rename_i hpat
    injection hok with hok
    subst hok
    left
    by_cases hm : (⟨10⟩ : Junction) ∈ J
    · rw [specialCaseStep_mem J hm]
      decide
    · rw [specialCaseStep_not_mem J hm]
      decide
  · rename_i hpat
    have hstep := (assert_ok_iff _ step D).mp hok
    obtain ⟨hse, _⟩ := hstep
    subst hse
    rcases hT with hc | ⟨dp, t, heq, hpair, hten⟩
    · left
      calc (generalRowStep h D J).remaining.planks.count (⟨10⟩ : Plank)
          ≤ h.planks.count (⟨10⟩ : Plank) := by
            apply remaining_count_le h D J
            unfold select_planks_for_line
            rw [if_neg hpat]
            exact hok
        _ ≤ 1 := hc
    · obtain ⟨rdp, rt, hsplit, hsub1, hsub2⟩ :=
        scanRow_remaining_split h D J dp t heq
      have hrdp_pair : rdp.Pairwise decreasingLength := hpair.sublist hsub1
      have hrt_ten : (⟨10⟩ : Plank) ∉ rt := fun hmem => hten (hsub2.subset hmem)
      rcases (generalRowStep_parts h D J).2 with hc | ⟨p, hstash, hc⟩
      · right
        exact ⟨rdp, rt, by rw [hc, hsplit], hrdp_pair, hrt_ten⟩
      · by_cases hp10 : p = (⟨10⟩ : Plank)
        · left
          subst hp10
          have hnoten := stash_ten_no_ten_remaining h D J dp t heq hpair
            hten hstash
          rw [hc]
          rw [List.count_append]
          have h0 : (scanRow h D J).remaining.planks.count (⟨10⟩ : Plank)
              = 0 := List.count_eq_zero.mpr hnoten
          rw [h0]
          simp
        · right
          refine ⟨rdp, rt ++ [p], ?_, hrdp_pair, ?_⟩
          · rw [hc, hsplit, List.append_assoc]
          · intro hmem
            rcases List.mem_append.mp hmem with hmem | hmem
            · exact hrt_ten hmem
            · rw [List.mem_singleton] at hmem
              exact hp10 hmem.symm

/-! ### Compatibility of a line with the heap it leaves behind -/

/-- A line and the heap threaded to the next row never combine junctions
`2` and `10` with the exact special-case heap: the configuration that would
make the hard-coded `[10, 10, 2, 2]` branch reuse a previous junction. -/
def Compat (L : Line) (heap : PlankHeap) : Prop :=
  ¬((⟨2⟩ : Junction) ∈ L.compute_junction ∧
    (⟨10⟩ : Junction) ∈ L.compute_junction ∧
    heap.planks = [⟨10⟩, ⟨10⟩, ⟨2⟩, ⟨2⟩])

/-- The core unreachability argument: a successful row on a structured heap
cannot both leave exactly `[10, 10, 2, 2]` behind and produce a line whose
junctions contain 2 and 10.  A junction at 2 forces the line's first
accepted plank to have length at most 2, so nothing was rejected before it;
the two tens left behind were rejected after it, hence sit after it in the
heap — impossible both inside the non-increasing front part (a ten cannot
follow a plank of length 2) and in the ten-free tail. -/
theorem row_compat (h : PlankHeap) (D : Nat) (J : List Junction)
    (step : CalepineStep)
    (hok : select_planks_for_line h D J = Except.ok step)
    (hT : TensInD h.planks) :
    Compat ⟨step.selected.planks⟩ step.remaining := by
  rintro ⟨h2, h10, hrem⟩
  have hok0 := hok
  unfold select_planks_for_line at hok
  split at hok
  · injection hok with hok
    subst hok
    by_cases hm : (⟨10⟩ : Junction) ∈ J
    · rw [specialCaseStep_mem J hm] at hrem
      exact absurd hrem (by decide)
    · rw [specialCaseStep_not_mem J hm] at hrem
      exact absurd hrem (by decide)
  · rename_i hpat
    obtain ⟨hse, _⟩ := (assert_ok_iff _ step D).mp hok
    subst hse
    -- facts about the junctions of the produced line
    have hsum2 : 2 ∈ scanSums 0 (generalRowStep h D J).selected.planks :=
      junction_mem_scanSums _ ⟨2⟩ h2
    have hsum10 : 10 ∈ scanSums 0 (generalRowStep h D J).selected.planks :=
      junction_mem_scanSums _ ⟨10⟩ h10
    have hD10 : 10 ≤ D := by
      have hb := scanSums_le_sum 0 _ 10 hsum10
      have hwf : (generalRowStep h D J).selected.total_length
          = sumLen (generalRowStep h D J).selected.planks :=
        (generalRowStep_WF h D J).1
      have hle := generalRowStep_total_le h D J
      omega
    -- decompose the scan around the first accepted plank
    have hinit1 : (CalepineStep.init).selected.planks = [] := rfl
    have hinit2 : (CalepineStep.init).selected.total_length = 0 := rfl
    have hscan_def : scanRow h D J = h.planks.foldl
        (select_planks_fitting_length_goal D J) CalepineStep.init := rfl
    rcases scan_first_accept D J h.planks CalepineStep.init hinit1 hinit2 with
      hempty | ⟨l₁, p₁, l₂, s₁, hldecomp, hfold, hone, r₁, hr₁, hbig⟩
    · -- no plank ever accepted: the line has at most one plank, so it
      -- cannot have junctions at both 2 and 10
      have hempty' : (scanRow h D J).selected.planks = [] := by
        rw [hscan_def]
        exact hempty
      rcases (generalRowStep_parts h D J).1 with hc | ⟨p, hc⟩
      · rw [hc, hempty'] at hsum2
        simp [scanSums] at hsum2
      · rw [hc, hempty'] at hsum2 hsum10
        simp [scanSums] at hsum2 hsum10
        omega
    · have he : scanRow h D J
          = l₂.foldl (select_planks_fitting_length_goal D J) s₁ := by
        rw [hscan_def, hfold]
      obtain ⟨sel₂, hsel₂⟩ := scan_selected_append D J l₂ s₁
      obtain ⟨r₂, hr₂, hsub₂⟩ := scan_remaining_append D J l₂ s₁
      have hscan_sel : (scanRow h D J).selected.planks = p₁ :: sel₂ := by
        rw [he, hsel₂, hone]
        rfl
      have hscan_rem : (scanRow h D J).remaining.planks = r₁ ++ r₂ := by
        rw [he, hr₂, hr₁]
        simp [CalepineStep.init, PlankHeap.new]
      -- the line starts with the first accepted plank, of length ≤ 2
      have hline_head : ∃ rest, (generalRowStep h D J).selected.planks
          = p₁ :: rest := by
        rcases (generalRowStep_parts h D J).1 with hc | ⟨p, hc⟩
        · exact ⟨sel₂, by rw [hc, hscan_sel]⟩
        · refine ⟨sel₂ ++ [p], ?_⟩
          rw [hc, hscan_sel]
          rfl
      obtain ⟨rest, hline⟩ := hline_head
      have hp₁ : p₁.length ≤ 2 := by
        rw [hline] at hsum2
        have := scanSums_head_le 0 p₁ rest 2 hsum2
        omega
      -- the scan rejected a ten
      have hrem_head : ∃ rest', (scanRow h D J).remaining.planks
          = (⟨10⟩ : Plank) :: rest' := by
        rcases (generalRowStep_parts h D J).2 with hc | ⟨p, _, hc⟩
        · refine ⟨[⟨10⟩, ⟨2⟩, ⟨2⟩], ?_⟩
          rw [← hc]
          exact hrem
        · rw [hc] at hrem
          cases hsr : (scanRow h D J).remaining.planks with
          | nil =>
            rw [hsr] at hrem
            simp at hrem
          | cons x xs =>
            rw [hsr] at hrem
            have hx : x = (⟨10⟩ : Plank) := by
              have := congrArg List.head? hrem
              simpa using this
            exact ⟨xs, by rw [hx]⟩
      obtain ⟨rest', hrem_scan⟩ := hrem_head
      -- the rejected ten cannot be an early (overshooting) reject
      have h10mem : (⟨10⟩ : Plank) ∈ l₂ := by
        rw [hscan_rem] at hrem_scan
        cases hr1c : r₁ with
        | nil =>
          rw [hr1c, List.nil_append] at hrem_scan
          apply hsub₂.subset
          rw [hrem_scan]
          exact List.mem_cons_self _ _
        | cons q r₁t =>
          rw [hr1c] at hrem_scan
          have hq : q = (⟨10⟩ : Plank) := by
            have := congrArg List.head? hrem_scan
            simpa using this
          have hq2 := hbig q (by rw [hr1c]; exact List.mem_cons_self q r₁t)
          rw [hq] at hq2
          simp at hq2
          omega
      -- tens count at least 2 in the heap, so the structured split exists
      have hcount : 2 ≤ h.planks.count (⟨10⟩ : Plank) := by
        have := remaining_count_le h D J (generalRowStep h D J) hok0
        rw [hrem] at this
        simpa using this
      rcases hT with hc | ⟨dp, t, heqdp, hpair, hten⟩
      · omega
      · -- place the rejected ten inside the dp ++ t split
        have hsplit2 : dp ++ t = l₁ ++ (p₁ :: l₂) := by
          rw [← heqdp, hldecomp]
        rw [List.append_eq_append_iff] at hsplit2
        rcases hsplit2 with ⟨a, ha1, ha2⟩ | ⟨c, hc1, hc2⟩
        · apply hten
          rw [ha2]
          apply List.mem_append_right
          exact List.mem_cons_of_mem p₁ h10mem
        · cases hcc : c with
          | nil =>
            apply hten
            rw [hcc] at hc2
            simp at hc2
            rw [← hc2]
            exact List.mem_cons_of_mem p₁ h10mem
          | cons y c₂ =>
            rw [hcc] at hc2 hc1
            obtain ⟨hy1, hy2⟩ : p₁ = y ∧ l₂ = c₂ ++ t := by
              have h3 : p₁ :: l₂ = y :: (c₂ ++ t) := hc2
              rw [List.cons.injEq] at h3
              exact h3
            rw [hy2] at h10mem
            rcases List.mem_append.mp h10mem with hmem | hmem
            · -- a ten after p₁ inside the non-increasing part
              rw [hc1, ← hy1] at hpair
              have hpc := (List.pairwise_append.mp hpair).2.1
              rw [List.pairwise_cons] at hpc
              have := hpc.1 (⟨10⟩ : Plank) hmem
              unfold decreasingLength at this
              simp at this
              omega
            · exact hten hmem

/-- Per-row seam avoidance: either every junction of the produced line
avoids the previous junctions, or the row is the special-case `if` branch,
which produces `[2, 10]` when junction 10 collides. -/
theorem row_seam (h : PlankHeap) (D : Nat) (J : List Junction)
    (step : CalepineStep)
    (hok : select_planks_for_line h D J = Except.ok step) :
    (∀ j ∈ (Line.mk step.selected.planks).compute_junction, j ∉ J) ∨
    (h.planks = [⟨10⟩, ⟨10⟩, ⟨2⟩, ⟨2⟩] ∧ (⟨10⟩ : Junction) ∈ J ∧
      step.selected.planks = [⟨2⟩, ⟨10⟩]) := by
  unfold select_planks_for_line at hok
  split at hok
  · rename_i hpat
    injection hok with hok
    subst hok
    by_cases hm : (⟨10⟩ : Junction) ∈ J
    · right
      rw [specialCaseStep_mem J hm]
      exact ⟨hpat, hm, rfl⟩
    · left
      rw [specialCaseStep_not_mem J hm]
      intro j hj
      have : j = (⟨10⟩ : Junction) := by
        have hconc : (Line.mk [⟨10⟩, ⟨2⟩]).compute_junction = [⟨10⟩] := by
          decide
        rw [hconc] at hj
        simpa using hj
      rw [this]
      exact hm
  · obtain ⟨hse, _⟩ := (assert_ok_iff _ step D).mp hok
    subst hse
    exact Or.inl (generalRowStep_junctions_avoid h D J)

/-! ### The layout loop -/

theorem calepineLoop_succ (D n : Nat) (heap : PlankHeap) (cal : Calepinage) :
    calepineLoop D (n + 1) heap cal =
      (select_planks_for_line heap D (previousJunctions cal)).bind
        (fun step => calepineLoop D n step.remaining
          (cal.with_line ⟨step.selected.planks⟩)) := rfl

/-- Every line of a successful layout either meets the deck length goal or
is a special-case line of total length 12, and each loop iteration appends
exactly one line. -/
theorem calepineLoop_lines (D : Nat) :
    ∀ (n : Nat) (heap : PlankHeap) (cal res : Calepinage),
    calepineLoop D n heap cal = Except.ok res →
    res.lines.length = cal.lines.length + n ∧
    ∀ line ∈ res.lines,
      line ∈ cal.lines ∨ D ≤ sumLen line.planks ∨ sumLen line.planks = 12 := by
  intro n
  induction n with
  | zero =>
    intro heap cal res h
    injection h with h
    subst h
    exact ⟨rfl, fun l hl => Or.inl hl⟩
  | succ n ih =>
    intro heap cal res h
    rw [calepineLoop_succ] at h
    cases hsel : select_planks_for_line heap D (previousJunctions cal) with
    | error e =>
      rw [hsel] at h
      have hbad : (Except.error e : Except CalepinageError Calepinage)
          = Except.ok res := h
      simp at hbad
    | ok step =>
      rw [hsel] at h
      have h2 : calepineLoop D n step.remaining
          (cal.with_line ⟨step.selected.planks⟩) = Except.ok res := h
      have hrec := ih step.remaining (cal.with_line ⟨step.selected.planks⟩)
        res h2
      constructor
      · rw [hrec.1]
        simp [Calepinage.with_line]
        omega
      · intro line hline
        rcases hrec.2 line hline with hin | hP | hP
        · simp only [Calepinage.with_line, List.mem_append,
            List.mem_singleton] at hin
          rcases hin with hin | hin
          · exact Or.inl hin
          · subst hin
            rcases row_line_total heap D _ step hsel with h1 | h1
            · exact Or.inr (Or.inl h1)
            · exact Or.inr (Or.inr h1)
        · exact Or.inr (Or.inl hP)
        · exact Or.inr (Or.inr hP)

/-- Consecutive lines share no junction offset. -/
def SeamChain (lines : List Line) : Prop :=
  lines.Chain' (fun A B => ∀ j ∈ B.compute_junction, j ∉ A.compute_junction)

/-- Seam avoidance propagates through the layout loop: every iteration's
new line avoids the previous line's junctions, including at the hard-coded
special case, whose dangerous branch is unreachable thanks to the
heap-structure invariant. -/
theorem calepineLoop_seam (D : Nat) :
    ∀ (n : Nat) (heap : PlankHeap) (cal res : Calepinage),
    calepineLoop D n heap cal = Except.ok res →
    TensInD heap.planks →
    SeamChain cal.lines →
    (∀ L, cal.lines.getLast? = some L → Compat L heap) →
    SeamChain res.lines := by
  intro n
  induction n with
  | zero =>
    intro heap cal res h hT hseam _
    injection h with h
    subst h
    exact hseam
  | succ n ih =>
    intro heap cal res h hT hseam hcompat
    rw [calepineLoop_succ] at h
    cases hsel : select_planks_for_line heap D (previousJunctions cal) with
    | error e =>
      rw [hsel] at h
      have hbad : (Except.error e : Except CalepinageError Calepinage)
          = Except.ok res := h
      simp at hbad
    | ok step =>
      rw [hsel] at h
      have h2 : calepineLoop D n step.remaining
          (cal.with_line ⟨step.selected.planks⟩) = Except.ok res := h
      have hpairnew : ∀ L, cal.lines.getLast? = some L →
          ∀ j ∈ (Line.mk step.selected.planks).compute_junction,
            j ∉ L.compute_junction := by
        intro L hL j hj
        have hJ : previousJunctions cal = L.compute_junction := by
          unfold previousJunctions
          rw [hL]
        rcases row_seam heap D (previousJunctions cal) step hsel with
          hg | ⟨hpat, h10, hsp⟩
        · have := hg j hj
          rw [hJ] at this
          exact this
        · have hj2 : j = (⟨2⟩ : Junction) := by
            rw [hsp] at hj
            have hconc : (Line.mk [⟨2⟩, ⟨10⟩]).compute_junction = [⟨2⟩] := by
              decide
            rw [hconc] at hj
            simpa using hj
          subst hj2
          intro h2in
          apply hcompat L hL
          refine ⟨h2in, ?_, hpat⟩
          rw [← hJ]
          exact h10
      have hseam2 : SeamChain (cal.with_line ⟨step.selected.planks⟩).lines := by
        show List.Chain' _ (cal.lines ++ [⟨step.selected.planks⟩])
        rw [List.chain'_append]
        refine ⟨hseam, List.chain'_singleton _, ?_⟩
        intro x hx y hy
        have hy2 : y = ⟨step.selected.planks⟩ := by
          have := hy
          simp at this
          exact this.symm
        subst hy2
        exact fun j hj => hpairnew x hx j hj
      have hcompat2 : ∀ L,
          (cal.with_line ⟨step.selected.planks⟩).lines.getLast? = some L →
          Compat L step.remaining := by
        intro L hL
        have hL2 : L = ⟨step.selected.planks⟩ := by
          have hL3 : (cal.lines ++ [(⟨step.selected.planks⟩ : Line)]).getLast?
              = some L := hL
          rw [List.getLast?_concat] at hL3
          injection hL3 with hL3
          exact hL3.symm
        subst hL2
        exact row_compat heap D (previousJunctions cal) step hsel hT
      exact ih step.remaining _ res h2
        (rowTensInD heap D _ step hsel hT) hseam2 hcompat2

/-- C2: in every layout returned successfully by `calepine`, for every pair
of consecutive lines, no junction offset of the later line (computed by
`compute_junction`) equals any junction offset of the immediately preceding
line; the first line is unconstrained. -/
theorem C2_no_shared_junctions (h : PlankHeap) (d : Deck) (cal : Calepinage)
    (hok : calepine h d = Except.ok cal) :
    cal.lines.Chain'
      (fun A B => ∀ j ∈ B.compute_junction, j ∉ A.compute_junction) := by
  have hloop : calepineLoop d.length d.width
      ⟨sortPlanksDesc (PlankHeap.from_planks h.planks).planks,
        (PlankHeap.from_planks h.planks).total_length⟩ ⟨[]⟩
      = Except.ok cal := hok
  apply calepineLoop_seam d.length d.width _ ⟨[]⟩ cal hloop
  · right
    refine ⟨sortPlanksDesc (PlankHeap.from_planks h.planks).planks, [],
      (List.append_nil _).symm, ?_, by simp⟩
    exact List.sorted_insertionSort decreasingLength _
  · exact List.chain'_nil
  · intro L hL
    simp at hL

/-- C2 witness: the heap `[10, 2, 2, 10]` on a 12×2 deck succeeds with the
layout `[[10, 2], [2, 10]]`, whose consecutive junctions `{10}` and `{2}`
are disjoint. -/
theorem C2_witness :
    calepine ⟨[⟨10⟩, ⟨2⟩, ⟨2⟩, ⟨10⟩], 24⟩ ⟨12, 2⟩ =
      Except.ok ⟨[⟨[⟨10⟩, ⟨2⟩]⟩, ⟨[⟨2⟩, ⟨10⟩]⟩]⟩ ∧
    (⟨[⟨[⟨10⟩, ⟨2⟩]⟩, ⟨[⟨2⟩, ⟨10⟩]⟩]⟩ : Calepinage).lines.Chain'
      (fun A B => ∀ j ∈ B.compute_junction, j ∉ A.compute_junction) :=
  ⟨by decide, C2_no_shared_junctions ⟨[⟨10⟩, ⟨2⟩, ⟨2⟩, ⟨10⟩], 24⟩ ⟨12, 2⟩
    ⟨[⟨[⟨10⟩, ⟨2⟩]⟩, ⟨[⟨2⟩, ⟨10⟩]⟩]⟩ (by decide)⟩

/-! ### Claim C1: shape of a successful layout -/

/-- C1 counterexample: the special-cased heap `[10, 10, 2, 2]` with a 13×1
deck yields a successful layout whose single line `[10, 2]` sums to 12,
below the deck length 13 — the length-goal check is bypassed by the
hard-coded case, so `calepine` does return a layout with a short line. -/
theorem C1_counterexample :
    calepine ⟨[⟨10⟩, ⟨10⟩, ⟨2⟩, ⟨2⟩], 24⟩ ⟨13, 1⟩ =
      Except.ok ⟨[⟨[⟨10⟩, ⟨2⟩]⟩]⟩ ∧
    sumLen [⟨10⟩, ⟨2⟩] < 13 := by
  constructor
  · decide
  · decide

/-- C1 (amended): a successful `calepine` always has exactly `deck.width`
lines, and every line's planks sum to at least `deck.length` except for
lines produced by the `[10, 10, 2, 2]` special case, whose total is
exactly 12 (and may fall below the deck length, since that case skips the
length-goal check). -/
theorem C1_layout_shape (h : PlankHeap) (d : Deck) (cal : Calepinage)
    (hok : calepine h d = Except.ok cal) :
    cal.lines.length = d.width ∧
    ∀ line ∈ cal.lines,
      d.length ≤ sumLen line.planks ∨ sumLen line.planks = 12 := by
  have hloop : calepineLoop d.length d.width
      ⟨sortPlanksDesc (PlankHeap.from_planks h.planks).planks,
        (PlankHeap.from_planks h.planks).total_length⟩ ⟨[]⟩
      = Except.ok cal := hok
  have hspec := calepineLoop_lines d.length d.width _ ⟨[]⟩ cal hloop
  constructor
  · have := hspec.1
    simpa using this
  · intro line hline
    rcases hspec.2 line hline with hin | hP | hP
    · simp at hin
    · exact Or.inl hP
    · exact Or.inr hP

/-- C1 witness: the heap `[5, 5]` on a 10×1 deck succeeds with one line
`[5, 5]` meeting the goal. -/
theorem C1_witness :
    (⟨[⟨[⟨5⟩, ⟨5⟩]⟩]⟩ : Calepinage).lines.length = 1 ∧
    ∀ line ∈ (⟨[⟨[⟨5⟩, ⟨5⟩]⟩]⟩ : Calepinage).lines,
      10 ≤ sumLen line.planks ∨ sumLen line.planks = 12 :=
  C1_layout_shape ⟨[⟨5⟩, ⟨5⟩], 10⟩ ⟨10, 1⟩ ⟨[⟨[⟨5⟩, ⟨5⟩]⟩]⟩ (by decide)

/-! ### Claim C3: plank conservation across a row -/

/-- C3 counterexample: calling the row selector on the heap `[10, 10, 2]`
with deck length 12 and previous junction 10 succeeds with selected
`[2, 10]`, empty remaining and empty stash: one plank of length 10 has
vanished (both 10s were stashed in turn, the second overwriting the first),
so the three parts do not recompose the input heap. -/
theorem C3_counterexample :
    select_planks_for_line ⟨[⟨10⟩, ⟨10⟩, ⟨2⟩], 22⟩ 12 [⟨10⟩] =
      Except.ok ⟨⟨[], 0⟩, ⟨[⟨2⟩, ⟨10⟩], 12⟩, none⟩ ∧
    ¬ stepMultiset ⟨⟨[], 0⟩, ⟨[⟨2⟩, ⟨10⟩], 12⟩, none⟩ =
        (↑([⟨10⟩, ⟨10⟩, ⟨2⟩] : List Plank) : Multiset Plank) := by
  constructor
  · decide
  · decide

/-- C3 (amended): for every successful invocation of the row selector, the
multiset union of the resulting step's selected planks, remaining planks
and stash is a sub-multiset of the input heap's planks (so no plank is ever
invented, and any plank of the input missing from the union was dropped by
a stash overwrite); equality can fail, so planks can be lost. -/
theorem C3_conservation (h : PlankHeap) (D : Nat) (J : List Junction)
    (step : CalepineStep)
    (hok : select_planks_for_line h D J = Except.ok step) :
    stepMultiset step ≤ (↑h.planks : Multiset Plank) :=
  select_ok_multiset_le h D J step hok

/-- C3 witness: a run in which the conservation bound is exercised. -/
theorem C3_witness :
    select_planks_for_line ⟨[⟨10⟩, ⟨10⟩, ⟨2⟩], 22⟩ 12 [⟨10⟩] =
      Except.ok ⟨⟨[], 0⟩, ⟨[⟨2⟩, ⟨10⟩], 12⟩, none⟩ ∧
    stepMultiset ⟨⟨[], 0⟩, ⟨[⟨2⟩, ⟨10⟩], 12⟩, none⟩ ≤
      (↑([⟨10⟩, ⟨10⟩, ⟨2⟩] : List Plank) : Multiset Plank) := by
  refine ⟨by decide, ?_⟩
  exact C3_conservation ⟨[⟨10⟩, ⟨10⟩, ⟨2⟩], 22⟩ 12 [⟨10⟩]
    ⟨⟨[], 0⟩, ⟨[⟨2⟩, ⟨10⟩], 12⟩, none⟩ (by decide)

/-! ### Claim C4: error taxonomy of the row selector -/

/-- C4 counterexample: on the special-cased heap `[10, 10, 2, 2]` with deck
length 13, the row's final selected total is 12, below the deck length, yet
the row selector succeeds instead of failing — the special case bypasses the
length-goal check entirely. -/
theorem C4_counterexample :
    select_planks_for_line ⟨[⟨10⟩, ⟨10⟩, ⟨2⟩, ⟨2⟩], 24⟩ 13 [] =
      Except.ok ⟨⟨[⟨10⟩, ⟨2⟩], 12⟩, ⟨[⟨10⟩, ⟨2⟩], 12⟩, none⟩ ∧
    (⟨⟨[⟨10⟩, ⟨2⟩], 12⟩, ⟨[⟨10⟩, ⟨2⟩], 12⟩,
        none⟩ : CalepineStep).selected.total_length < 13 := by
  constructor
  · decide
  · decide

/-- C4 (amended): except on the special-cased heap `[10, 10, 2, 2]` (which
skips the check), when the row's final selected total is below the deck
length the selector fails with `NotEnoughPlanks` exactly when the step's
remaining total is zero, and otherwise with `OnlyUnusablePlanksRemaining`
carrying the step's textual diagnostic; when the selected total meets the
goal it succeeds with that step. -/
theorem C4_error_taxonomy (h : PlankHeap) (D : Nat) (J : List Junction)
    (hspec : h.planks ≠ [⟨10⟩, ⟨10⟩, ⟨2⟩, ⟨2⟩]) :
    ((generalRowStep h D J).selected.total_length < D →
      (select_planks_for_line h D J =
          Except.error CalepinageError.NotEnoughPlanks ↔
        (generalRowStep h D J).remaining.total_length = 0) ∧
      ((generalRowStep h D J).remaining.total_length ≠ 0 →
        select_planks_for_line h D J = Except.error
          (CalepinageError.OnlyUnusablePlanksRemaining
            (generalRowStep h D J).toText))) ∧
    (D ≤ (generalRowStep h D J).selected.total_length →
      select_planks_for_line h D J = Except.ok (generalRowStep h D J)) := by
  unfold select_planks_for_line
  rw [if_neg hspec]
  unfold assert_length_goal_fulfilled
  constructor
  · intro hlt
    rw [if_pos hlt]
    constructor
    · constructor
      · intro heq
        split at heq
        · assumption
        · simp at heq
      · intro hz
        rw [if_pos hz]
    · intro hnz
      rw [if_neg hnz]
  · intro hge
    rw [if_neg (by omega)]

/-- C4 witness: `[8]` against deck length 10 fails with `NotEnoughPlanks`
(nothing remains), and `[5, 5]` against deck length 10 succeeds. -/
theorem C4_witness :
    select_planks_for_line ⟨[⟨8⟩], 8⟩ 10 [] =
      Except.error CalepinageError.NotEnoughPlanks ∧
    select_planks_for_line ⟨[⟨5⟩, ⟨5⟩], 10⟩ 10 [] =
      Except.ok (generalRowStep ⟨[⟨5⟩, ⟨5⟩], 10⟩ 10 []) := by
  constructor
  · exact ((C4_error_taxonomy ⟨[⟨8⟩], 8⟩ 10 [] (by decide)).1
      (by decide)).1.mpr (by decide)
  · exact (C4_error_taxonomy ⟨[⟨5⟩, ⟨5⟩], 10⟩ 10 [] (by decide)).2 (by decide)

/-- C5: on the heap built from `[8, 5, 8, 5, 8, 5]` and the 10×3 deck,
`calepine` fails with `OnlyUnusablePlanksRemaining` carrying exactly the
diagnostic string from the Rust test. -/
theorem C5_concrete_diagnostic :
    calepine (PlankHeap.from_planks [⟨8⟩, ⟨5⟩, ⟨8⟩, ⟨5⟩, ⟨8⟩, ⟨5⟩]) ⟨10, 3⟩ =
      Except.error (CalepinageError.OnlyUnusablePlanksRemaining
        "remaining = [8, 8, 5, 5, 5], selected = [8], stash = None") := by
  decide

end Calepinage
